import Mathlib

/-!
Verification of the RSA demo program (`lab3/main.cpp`): binary modular
exponentiation (`BinPower`), a base-2 Miller-Rabin style primality test
(`IsPrime`), random candidate generation (`GetRandBits`, `FPrime`), the
extended Euclidean algorithm (`ExtendedEuclidian`), key generation
(`GenerateRSAKeys`) and the cipher (`Encode` / `Decode`).

All arithmetic is modelled on `Nat` (the source uses an arbitrary-precision
`uint1024` with 4096-bit capacity that is never exceeded on the inputs
considered; Bezout coefficients, which the source stores in the same signed
type, are modelled on `Int`).  Every recursion or loop of the source that is
not structurally decreasing receives an explicit fuel argument bounding its
depth; wrapper definitions fix the fuel to a provably sufficient value, and
fuel-irrelevance lemmas show the value of the function does not depend on the
fuel as long as it is large enough.  The unbounded retry loops (`FPrime`,
`GenerateRSAKeys`) keep their fuel exposed: exhausting it models divergence
of the source loop (`none`).
-/

/-- Recursion core of `BinPower` from the source (lines 24-37).  The first
argument bounds the recursion depth (the source recurses on `power / 2`,
which strictly decreases); the wrapper `BinPower` fixes it to a sufficient
value. -/
def BinPowerAux : Nat → Nat → Nat → Nat → Nat
  | 0, _, _, _ => 1
  | fuel + 1, base, power, m =>
    if power = 0 then
      1
    else
      let value := BinPowerAux fuel base (power / 2) m
      let value2 := value * value % m
      if power % 2 ≠ 0 then value2 * base % m else value2

/-- `BinPower(base, power, mod)` of the source: binary modular
exponentiation.  The spec calls this operation `ModPow`. -/
def BinPower (base power m : Nat) : Nat :=
  BinPowerAux (power + 1) base power m

/-- Fuel-bounded core of `twoVal`: counts the trailing zero bits of `n`,
recursing on `n / 2`. -/
def twoValAux : Nat → Nat → Nat
  | 0, _ => 0
  | fuel + 1, n => if n % 2 = 1 ∨ n = 0 then 0 else twoValAux fuel (n / 2) + 1

/-- Index of the least significant set bit of `n` (its 2-adic valuation),
for `n ≠ 0`.  This is the value `power` computed by the bit scan of
`IsPrime` (source lines 74-77); the scan itself, which diverges on input 0,
is modelled separately by `scanBit`. -/
def twoVal (n : Nat) : Nat :=
  twoValAux n n

/-- The fixed trial-division set of `IsPrime` (source line 63).  Note that
2 is not a member. -/
def smallPrimes : List Nat :=
  [3, 5, 7, 11, 13, 17, 19, 23, 29, 31]

/-- The trial-division pre-filter of `IsPrime` (source lines 66-70): rejects
`value` when some member of `smallPrimes` divides it. -/
def preFilterRejects (value : Nat) : Bool :=
  smallPrimes.any fun p => value % p == 0

/-- The squaring loop of `IsPrime` (source lines 86-91).  The fuel argument
is the source loop bound `power - 1` (the loop runs `i = 1, ..., power-1`),
so it is not an artifact here: the loop is structurally bounded. -/
def mrLoop : Nat → Nat → Nat → Bool
  | _, _, 0 => false
  | value, surplus, fuel + 1 =>
    if surplus * surplus % value = value - 1 then true
    else mrLoop value (surplus * surplus % value) fuel

/-- `IsPrime` from the source (lines 62-94), the spec's `PrimalityTest`:
trial division by `smallPrimes`, then a single base-2 Miller-Rabin style
witness check.  The source computes `power` by scanning the bits of
`value - 1` (modelled by `twoVal`; the scan itself is `scanBit`), restores
`value`, and sets `q = value / 2^power` (note: `value`, not `value - 1`,
mirroring line 79).  On input 1 the source scan diverges; `twoVal 0 = 0`
here, so this total model is only quoted at inputs where the source
terminates. -/
def IsPrime (value : Nat) : Bool :=
  if preFilterRejects value then false
  else
    let power := twoVal (value - 1)
    let q := value / (1 <<< power)
    let surplus := BinPower 2 q value
    if surplus = 1 ∨ surplus = value - 1 then true
    else mrLoop value surplus (power - 1)

/-- The bit scan of `IsPrime` (source lines 75-77): starting at `power`,
look for the first set bit of `m`, giving up after `fuel` steps.  The
source loop is unbounded; `none` models its divergence. -/
def scanBit : Nat → Nat → Nat → Option Nat
  | _, 0, _ => none
  | m, fuel + 1, power =>
    if m &&& (1 <<< power) = 0 then scanBit m fuel (power + 1) else some power

/-- `i`-fold squaring modulo `value` starting from `surplus`: the value held
by the loop variable `surplus` of `IsPrime` after `i` iterations. -/
def sqIter (value surplus : Nat) : Nat → Nat
  | 0 => surplus
  | i + 1 => sqIter value surplus i * sqIter value surplus i % value

/-- `GetRandBits` from the source (lines 96-107): bit `i` of the result is
set exactly when the `i`-th coin draw is 0; `draw i = true` models the draw
yielding 1.  The loop runs `i = 0, ..., bits-1`. -/
def GetRandBits : Nat → (Nat → Bool) → Nat
  | 0, _ => 0
  | bits + 1, draw =>
    if draw bits = false then GetRandBits bits draw ||| (1 <<< bits)
    else GetRandBits bits draw

/-- The constant `e` of `FPrime` (source line 113): `2^16 mod 10^9 + 1`,
that is 65537. -/
def e0 : Nat :=
  BinPower 2 16 1000000000 + 1

/-- The candidate mask of `FPrime` (source line 114): forces the two most
significant bits and the least significant bit. -/
def mask (bits : Nat) : Nat :=
  (3 <<< (bits - 2)) ||| 1

/-- The retry loop of `FPrime` (source lines 116-122).  `draws k` supplies
the coin draws of the `k`-th iteration (the source draws fresh randomness
from its engine each time round); `fuel` bounds the number of iterations,
`none` modelling divergence of the unbounded source loop. -/
def FPrimeAux (bits : Nat) (draws : Nat → Nat → Bool) : Nat → Nat → Option Nat
  | 0, _ => none
  | fuel + 1, k =>
    let value := GetRandBits bits (draws k) ||| mask bits
    if value % e0 ≠ 1 ∧ IsPrime value = true then some value
    else FPrimeAux bits draws fuel (k + 1)

/-- `FPrime` from the source (lines 109-123), the spec's `PrimeGenerator`:
repeatedly draw a masked candidate until one passes the `mod e0` filter and
`IsPrime`. -/
def FPrime (bits : Nat) (draws : Nat → Nat → Bool) (fuel : Nat) : Option Nat :=
  FPrimeAux bits draws fuel 0

/-- `GeneratePrime` from the source (lines 128-130): delegates to `FPrime`. -/
def GeneratePrime (bitsCount : Nat) (draws : Nat → Nat → Bool) (fuel : Nat) :
    Option Nat :=
  FPrime bitsCount draws fuel

/-- Fuel-bounded core of `ExtendedEuclidian` (source lines 166-175).  The
recursion is on `(phi % e, e)`, whose first component strictly decreases;
the wrapper fixes the fuel.  Bezout coefficients may be negative, hence
`Int` results (the source stores them in its signed big-integer type). -/
def EEAux : Nat → Nat → Nat → Int × Int
  | 0, _, _ => (0, 1)
  | fuel + 1, e, phi =>
    if e = 0 then (0, 1)
    else
      let tmp := EEAux fuel (phi % e) e
      (tmp.2 - ((phi / e : Nat) : Int) * tmp.1, tmp.1)

/-- `ExtendedEuclidian` from the source, the spec's `ExtendedEuclid`. -/
def ExtendedEuclidian (e phi : Nat) : Int × Int :=
  EEAux (e + 1) e phi

/-- `TRSAKeys` from the source (lines 14-22): a public and a private key
half sharing a modulus.  The private exponent is kept as the raw (signed)
Bezout coefficient, as in the source's signed big-integer type. -/
structure TRSAKeys where
  PublicKey : Nat × Nat
  PrivateKey : Int × Nat
deriving DecidableEq

/-- The `TRSAKeys` constructor of the source (lines 18-21). -/
def TRSAKeys.make (openKey : Nat) (privateKey : Int) (moduleValue : Nat) :
    TRSAKeys :=
  ⟨(openKey, moduleValue), (privateKey, moduleValue)⟩

/-- The retry loop of `GenerateRSAKeys` (source lines 186-191): generate a
public exponent candidate, compute its Bezout coefficient against
`phi = (p-1)(q-1)`, and accept once that coefficient is non-negative.
`draws j` supplies the randomness of the `j`-th `GeneratePrime` call;
`innerFuel` bounds each such call and `fuel` the number of retries.  The
source then checks `(openExp * privateExp) % phi == 1` and prints a warning
on failure, without changing the returned value; that advisory diagnostic
is not part of the returned data and is not modelled. -/
def GenerateRSAKeysAux (p q bitsCount : Nat) (draws : Nat → Nat → Nat → Bool)
    (innerFuel : Nat) : Nat → Nat → Option TRSAKeys
  | 0, _ => none
  | fuel + 1, j =>
    match GeneratePrime (min bitsCount 32) (draws j) innerFuel with
    | none => none
    | some openExp =>
      let temp := ExtendedEuclidian openExp ((p - 1) * (q - 1))
      if 0 ≤ temp.1 then some (TRSAKeys.make openExp temp.1 (p * q))
      else GenerateRSAKeysAux p q bitsCount draws innerFuel fuel (j + 1)

/-- `GenerateRSAKeys` from the source (lines 179-198), the spec's
`KeyGenerator`. -/
def GenerateRSAKeys (p q bitsCount : Nat) (draws : Nat → Nat → Nat → Bool)
    (innerFuel outerFuel : Nat) : Option TRSAKeys :=
  GenerateRSAKeysAux p q bitsCount draws innerFuel outerFuel 0

/-- `Encode` from the source (lines 201-207).  The returned pair is the
encoded value together with the diagnostics written to the error stream:
the oversize-block check only emits a message and never alters the value. -/
def Encode (value : Nat) (publicKey : Nat × Nat) : Nat × List String :=
  (BinPower value publicKey.1 publicKey.2,
   if publicKey.2 ≤ value then ["Block is too large.\n"] else [])

/-- `Decode` from the source (lines 209-211). -/
def Decode (value : Nat) (privateKey : Nat × Nat) : Nat :=
  BinPower value privateKey.1 privateKey.2

theorem twoValAux_zero : ∀ fuel, twoValAux fuel 0 = 0 := by
  intro fuel
  cases fuel with
  | zero => rfl
  | succ fuel => simp [twoValAux]

theorem twoValAux_fuel_eq : ∀ f g n, n ≤ f → n ≤ g →
    twoValAux f n = twoValAux g n := by
  intro f
  induction f with
  | zero =>
    intro g n hf _
    have hn : n = 0 := by omega
    rw [hn, twoValAux_zero, twoValAux_zero]
  | succ f ih =>
    intro g n hf hg
    by_cases hn : n = 0
    · rw [hn, twoValAux_zero, twoValAux_zero]
    · have hg1 : 1 ≤ g := by omega
      obtain ⟨g, rfl⟩ : ∃ k, g = k + 1 := ⟨g - 1, by omega⟩
      by_cases hodd : n % 2 = 1
      · simp [twoValAux, hodd]
      · have hrec : n / 2 ≤ f ∧ n / 2 ≤ g := by omega
        simp only [twoValAux, hodd, hn, or_self, if_neg, false_or, if_false]
        rw [ih g (n / 2) hrec.1 hrec.2]

theorem twoVal_odd (n : Nat) (h : n % 2 = 1) : twoVal n = 0 := by
  have hn : n ≠ 0 := by omega
  obtain ⟨k, rfl⟩ : ∃ k, n = k + 1 := ⟨n - 1, by omega⟩
  simp [twoVal, twoValAux, h]

theorem twoVal_even (n : Nat) (h0 : n ≠ 0) (h2 : n % 2 = 0) :
    twoVal n = twoVal (n / 2) + 1 := by
  obtain ⟨k, rfl⟩ : ∃ k, n = k + 1 := ⟨n - 1, by omega⟩
  show twoValAux (k + 1) (k + 1) = twoVal ((k + 1) / 2) + 1
  have hodd : ¬ ((k + 1) % 2 = 1 ∨ k + 1 = 0) := by omega
  simp only [twoValAux, hodd, if_false]
  rw [twoValAux_fuel_eq k ((k + 1) / 2) ((k + 1) / 2) (by omega) (by omega)]
  rfl

theorem twoVal_le_self (n : Nat) : twoVal n ≤ n := by
  induction n using Nat.strong_induction_on with
  | _ n ih =>
    by_cases h0 : n = 0
    · subst h0
      simp [twoVal, twoValAux]
    · by_cases h2 : n % 2 = 1
      · rw [twoVal_odd n h2]
        omega
      · rw [twoVal_even n h0 (by omega)]
        have := ih (n / 2) (by omega)
        omega

theorem twoVal_dvd_odd (n : Nat) (h : n ≠ 0) :
    2 ^ twoVal n ∣ n ∧ (n / 2 ^ twoVal n) % 2 = 1 := by
  induction n using Nat.strong_induction_on with
  | _ n ih =>
    by_cases h2 : n % 2 = 1
    · rw [twoVal_odd n h2]
      simpa using h2
    · have hn2 : 2 ≤ n := by omega
      rw [twoVal_even n h (by omega)]
      obtain ⟨hdvd, hodd⟩ := ih (n / 2) (by omega) (by omega)
      obtain ⟨k, hk⟩ := hdvd
      constructor
      · refine ⟨k, ?_⟩
        calc n = 2 * (n / 2) := by omega
          _ = 2 * (2 ^ twoVal (n / 2) * k) := by conv_lhs => rw [hk]
          _ = 2 ^ (twoVal (n / 2) + 1) * k := by rw [pow_succ]; ring
      · rw [pow_succ, mul_comm (2 ^ twoVal (n / 2)) 2, ← Nat.div_div_eq_div_mul]
        exact hodd

theorem testBit_twoVal (n : Nat) (h : n ≠ 0) : n.testBit (twoVal n) = true := by
  induction n using Nat.strong_induction_on with
  | _ n ih =>
    by_cases h2 : n % 2 = 1
    · rw [twoVal_odd n h2, Nat.testBit_zero]
      simpa using h2
    · rw [twoVal_even n h (by omega), Nat.testBit_add_one]
      exact ih (n / 2) (by omega) (by omega)

theorem testBit_lt_twoVal (n : Nat) : ∀ j, j < twoVal n → n.testBit j = false := by
  induction n using Nat.strong_induction_on with
  | _ n ih =>
    intro j hj
    by_cases h0 : n = 0
    · subst h0
      simp
    · by_cases h2 : n % 2 = 1
      · rw [twoVal_odd n h2] at hj
        omega
      · rw [twoVal_even n h0 (by omega)] at hj
        cases j with
        | zero =>
          rw [Nat.testBit_zero]
          simpa using h2
        | succ j =>
          rw [Nat.testBit_add_one]
          exact ih (n / 2) (by omega) j (by omega)

theorem BinPowerAux_fuel_eq : ∀ f g base power m, power < f → power < g →
    BinPowerAux f base power m = BinPowerAux g base power m := by
  intro f
  induction f with
  | zero =>
    intro g base power m hf
    omega
  | succ f ih =>
    intro g base power m hf hg
    obtain ⟨g, rfl⟩ : ∃ k, g = k + 1 := ⟨g - 1, by omega⟩
    by_cases h0 : power = 0
    · simp [BinPowerAux, h0]
    · have hlt : power / 2 < power := by omega
      simp only [BinPowerAux, h0, if_false]
      rw [ih g base (power / 2) m (by omega) (by omega)]

theorem BinPower_zero (base m : Nat) : BinPower base 0 m = 1 := rfl

theorem BinPower_rec (base power m : Nat) (h : power ≠ 0) :
    BinPower base power m =
      (if power % 2 ≠ 0 then
        (BinPower base (power / 2) m * BinPower base (power / 2) m % m) * base % m
      else
        BinPower base (power / 2) m * BinPower base (power / 2) m % m) := by
  show BinPowerAux (power + 1) base power m = _
  simp only [BinPowerAux, h, if_false]
  rw [BinPowerAux_fuel_eq power (power / 2 + 1) base (power / 2) m (by omega) (by omega)]
  rfl

theorem BinPower_correct (base power m : Nat) (hm : 1 < m) :
    BinPower base power m = base ^ power % m := by
  induction power using Nat.strong_induction_on with
  | _ power ih =>
    by_cases h0 : power = 0
    · subst h0
      rw [BinPower_zero, pow_zero, Nat.mod_eq_of_lt hm]
    · rw [BinPower_rec base power m h0, ih (power / 2) (by omega)]
      have hsq : base ^ (power / 2) % m * (base ^ (power / 2) % m) % m =
          base ^ (power / 2 + power / 2) % m := by
        rw [← Nat.mul_mod, ← pow_add]
      by_cases h2 : power % 2 = 0
      · have hhalf : power / 2 + power / 2 = power := by omega
        simp only [h2, ne_eq, not_true_eq_false, if_false, ite_false]
        rw [hsq, hhalf]
      · have hhalf : power / 2 + power / 2 + 1 = power := by omega
        simp only [h2, ne_eq, not_false_eq_true, if_true, ite_true]
        rw [hsq, Nat.mod_mul_mod, ← pow_succ, hhalf]

/-- Claim C2: `BinPower` (the spec's `ModPow`) computes `base ^ power % m`
for every base, every exponent and every modulus greater than 1; in
particular the exponent-0 case yields 1, and `BinPower 2 10 1000 = 24`. -/
theorem c2_modpow_correct :
    (∀ base power m : Nat, 1 < m → BinPower base power m = base ^ power % m) ∧
    (∀ base m : Nat, 1 < m → BinPower base 0 m = 1) ∧
    BinPower 2 10 1000 = 24 :=
  ⟨fun base power m hm => BinPower_correct base power m hm,
   fun base m _ => BinPower_zero base m,
   by decide⟩

/-- Witness for C2 at a concrete input. -/
theorem c2_witness : BinPower 3 5 7 = 3 ^ 5 % 7 :=
  c2_modpow_correct.1 3 5 7 (by decide)

theorem preFilter_isPrime_false (v : Nat) (h : preFilterRejects v = true) :
    IsPrime v = false := by
  simp [IsPrime, h]

theorem isPrime_eq_of_not_filtered (v : Nat) (hf : preFilterRejects v = false) :
    IsPrime v =
      (if BinPower 2 (v / (1 <<< twoVal (v - 1))) v = 1 ∨
          BinPower 2 (v / (1 <<< twoVal (v - 1))) v = v - 1 then true
       else mrLoop v (BinPower 2 (v / (1 <<< twoVal (v - 1))) v)
              (twoVal (v - 1) - 1)) := by
  simp only [IsPrime, hf, Bool.false_eq_true, if_false]

theorem sqIter_shift (value surplus : Nat) :
    ∀ i, sqIter value (surplus * surplus % value) i = sqIter value surplus (i + 1) := by
  intro i
  induction i with
  | zero => rfl
  | succ i ih => simp only [sqIter, ih]

theorem mrLoop_iff : ∀ fuel value surplus, mrLoop value surplus fuel = true ↔
    ∃ i, 0 < i ∧ i ≤ fuel ∧ sqIter value surplus i = value - 1 := by
  intro fuel
  induction fuel with
  | zero =>
    intro v s
    constructor
    · intro h
      exact absurd h (by simp [mrLoop])
    · rintro ⟨i, h1, h2, -⟩
      omega
  | succ fuel ih =>
    intro v s
    simp only [mrLoop]
    by_cases h : s * s % v = v - 1
    · rw [if_pos h]
      constructor
      · intro _
        exact ⟨1, by omega, by omega, by simpa [sqIter] using h⟩
      · intro _
        rfl
    · rw [if_neg h, ih v (s * s % v)]
      constructor
      · rintro ⟨i, h1, h2, h3⟩
        exact ⟨i + 1, by omega, by omega, by rw [← sqIter_shift]; exact h3⟩
      · rintro ⟨i, h1, h2, h3⟩
        obtain ⟨k, rfl⟩ : ∃ k, i = k + 1 := ⟨i - 1, by omega⟩
        have hk0 : k ≠ 0 := by
          rintro rfl
          exact h (by simpa [sqIter] using h3)
        exact ⟨k, by omega, by omega, by rw [sqIter_shift]; exact h3⟩

theorem isPrime_even_false (v : Nat) (h2 : v % 2 = 0) : IsPrime v = false := by
  by_cases hf : preFilterRejects v = true
  · exact preFilter_isPrime_false v hf
  · have hfb : preFilterRejects v = false := by
      revert hf
      cases preFilterRejects v <;> simp
    have hv0 : v ≠ 0 := by
      rintro rfl
      revert hfb
      decide
    have hv2 : 2 ≤ v := by omega
    have hvodd : (v - 1) % 2 = 1 := by omega
    have hpow : twoVal (v - 1) = 0 := twoVal_odd _ hvodd
    have hq : v / (1 <<< twoVal (v - 1)) = v := by
      rw [hpow]
      simp
    have hsur : BinPower 2 v v = 2 ^ v % v := BinPower_correct 2 v v (by omega)
    have heven : 2 ^ v % v % 2 = 0 := by
      have h2dvd : 2 ∣ 2 ^ v % v := by
        rw [Nat.dvd_mod_iff ⟨v / 2, by omega⟩]
        exact dvd_pow_self 2 (by omega)
      omega
    rw [isPrime_eq_of_not_filtered v hfb, hq, hsur, hpow]
    rw [if_neg]
    · rfl
    · rintro (h1 | h1) <;> omega

/-- Counterexample to claim C4: the input 4 is even, yet the trial-division
pre-filter does not reject it (the set `smallPrimes` does not contain 2);
it is rejected only later, by the witness-stage computation. -/
theorem c4_counterexample :
    4 % 2 = 0 ∧ preFilterRejects 4 = false ∧ IsPrime 4 = false := by decide

/-- Claim C4, amended: `IsPrime` (the spec's `PrimalityTest`) rejects every
even value and every multiple of a member of `smallPrimes`; a multiple of a
set member is rejected by the trial-division pre-filter, but an even value
with no factor in the set (the set omits 2) passes the pre-filter and is
rejected by the witness-based computation instead. -/
theorem c4_rejection_amended :
    (∀ v : Nat, v % 2 = 0 → IsPrime v = false) ∧
    (∀ v p : Nat, p ∈ smallPrimes → v % p = 0 →
      preFilterRejects v = true ∧ IsPrime v = false) := by
  refine ⟨fun v h => isPrime_even_false v h, fun v p hp hd => ?_⟩
  have hf : preFilterRejects v = true := by
    simp only [preFilterRejects, List.any_eq_true]
    exact ⟨p, hp, by simpa using hd⟩
  exact ⟨hf, preFilter_isPrime_false v hf⟩

/-- Witness for C4 at concrete inputs (6 is even and coprime to the filter
set, 9 is a multiple of the member 3). -/
theorem c4_witness :
    IsPrime 6 = false ∧ preFilterRejects 9 = true ∧ IsPrime 9 = false :=
  ⟨c4_rejection_amended.1 6 (by decide),
   (c4_rejection_amended.2 9 3 (by decide) (by decide)).1,
   (c4_rejection_amended.2 9 3 (by decide) (by decide)).2⟩

/-- Claim C5: for every odd value at least 3 that survives the pre-filter,
writing `value - 1 = 2 ^ power * q` with `q` odd, `IsPrime` accepts exactly
when `surplus = BinPower 2 q value` is 1 or `value - 1`, or one of at most
`power - 1` successive squarings of `surplus` modulo `value` hits
`value - 1`. -/
theorem shift_div_eq (v t : Nat) (h2t : 2 ≤ 2 ^ t) (hdvd : 2 ^ t ∣ v - 1)
    (hv1 : 1 ≤ v) : v / (1 <<< t) = (v - 1) / 2 ^ t := by
  rw [Nat.shiftLeft_eq, one_mul]
  obtain ⟨k, hk⟩ := hdvd
  have hvk : v = 2 ^ t * k + 1 := by omega
  rw [hvk]
  have h1 : (2 ^ t * k + 1) / 2 ^ t = k := by
    rw [Nat.mul_add_div (by positivity)]
    have h10 : 1 / 2 ^ t = 0 := Nat.div_eq_of_lt (by omega)
    omega
  have h2 : 2 ^ t * k + 1 - 1 = 2 ^ t * k := by omega
  rw [h1, h2, Nat.mul_div_cancel_left k (by positivity)]

theorem c5_single_witness_check (v : Nat) (h3 : 3 ≤ v) (hodd : v % 2 = 1)
    (hf : preFilterRejects v = false) :
    v - 1 = 2 ^ twoVal (v - 1) * ((v - 1) / 2 ^ twoVal (v - 1)) ∧
    ((v - 1) / 2 ^ twoVal (v - 1)) % 2 = 1 ∧
    (IsPrime v = true ↔
      (BinPower 2 ((v - 1) / 2 ^ twoVal (v - 1)) v = 1 ∨
       BinPower 2 ((v - 1) / 2 ^ twoVal (v - 1)) v = v - 1 ∨
       ∃ i, 0 < i ∧ i < twoVal (v - 1) ∧
         sqIter v (BinPower 2 ((v - 1) / 2 ^ twoVal (v - 1)) v) i = v - 1)) := by
  have hm0 : v - 1 ≠ 0 := by omega
  have hme : (v - 1) % 2 = 0 := by omega
  have ht1 : 1 ≤ twoVal (v - 1) := by
    rw [twoVal_even (v - 1) hm0 hme]
    omega
  obtain ⟨hdvd, hoddq⟩ := twoVal_dvd_odd (v - 1) hm0
  refine ⟨(Nat.mul_div_cancel' hdvd).symm, hoddq, ?_⟩
  have h2t : (2 : Nat) ≤ 2 ^ twoVal (v - 1) := by
    calc (2 : Nat) = 2 ^ 1 := rfl
      _ ≤ 2 ^ twoVal (v - 1) := Nat.pow_le_pow_right (by omega) ht1
  have hq : v / (1 <<< twoVal (v - 1)) = (v - 1) / 2 ^ twoVal (v - 1) :=
    shift_div_eq v (twoVal (v - 1)) h2t hdvd (by omega)
  rw [isPrime_eq_of_not_filtered v hf, hq]
  by_cases hcond : BinPower 2 ((v - 1) / 2 ^ twoVal (v - 1)) v = 1 ∨
      BinPower 2 ((v - 1) / 2 ^ twoVal (v - 1)) v = v - 1
  · rw [if_pos hcond]
    constructor
    · intro _
      rcases hcond with h | h
      · exact Or.inl h
      · exact Or.inr (Or.inl h)
    · intro _
      rfl
  · rw [if_neg hcond, mrLoop_iff]
    constructor
    · rintro ⟨i, h1, h2, hval⟩
      exact Or.inr (Or.inr ⟨i, h1, by omega, hval⟩)
    · rintro (h | h | ⟨i, h1, h2, hval⟩)
      · exact absurd (Or.inl h) hcond
      · exact absurd (Or.inr h) hcond
      · exact ⟨i, h1, by omega, hval⟩

/-- Witness for C5 at the concrete input 53 (where `52 = 2^2 * 13`). -/
theorem c5_witness :
    IsPrime 53 = true ↔
      (BinPower 2 13 53 = 1 ∨ BinPower 2 13 53 = 52 ∨
       ∃ i, 0 < i ∧ i < 2 ∧ sqIter 53 (BinPower 2 13 53) i = 52) :=
  (c5_single_witness_check 53 (by decide) (by decide) (by decide)).2.2

/-- Claim C9: every member of the pre-filter set divides itself, so
`IsPrime` rejects it; `IsPrime 2` is also false (2 survives the filter but
fails the witness stage); hence every prime up to 31 is classified as
composite. -/
theorem c9_small_primes_rejected :
    (∀ p ∈ smallPrimes, IsPrime p = false) ∧ IsPrime 2 = false ∧
    (∀ p : Nat, p ≤ 31 → Nat.Prime p → IsPrime p = false) :=
  ⟨by decide, by decide, by decide⟩

/-- Witness for C9 at concrete inputs 31 and 2. -/
theorem c9_witness : IsPrime 31 = false ∧ IsPrime 2 = false :=
  ⟨c9_small_primes_rejected.1 31 (by decide), c9_small_primes_rejected.2.1⟩

theorem scanBit_zero : ∀ fuel power, scanBit 0 fuel power = none := by
  intro fuel
  induction fuel with
  | zero => intro power; rfl
  | succ fuel ih =>
    intro power
    simp only [scanBit, Nat.zero_and, if_pos]
    exact ih (power + 1)

theorem and_one_shiftLeft_eq_zero (m i : Nat) :
    (m &&& (1 <<< i) = 0) ↔ m.testBit i = false := by
  rw [Nat.shiftLeft_eq, one_mul, Nat.and_two_pow]
  constructor
  · intro h
    rcases Nat.mul_eq_zero.mp h with h | h
    · cases hb : m.testBit i
      · rfl
      · rw [hb] at h
        simp at h
    · exact absurd h (by positivity)
  · intro h
    rw [h]
    simp

theorem scanBit_finds (m : Nat) (hm : m ≠ 0) :
    ∀ fuel power, power ≤ twoVal m → twoVal m < power + fuel →
      scanBit m fuel power = some (twoVal m) := by
  intro fuel
  induction fuel with
  | zero =>
    intro power h1 h2
    omega
  | succ fuel ih =>
    intro power h1 h2
    by_cases heq : power = twoVal m
    · subst heq
      have hbit : ¬ (m &&& 1 <<< twoVal m = 0) := by
        rw [and_one_shiftLeft_eq_zero, testBit_twoVal m hm]
        simp
      simp only [scanBit]
      rw [if_neg hbit]
    · have hlt : power < twoVal m := by omega
      have hbit : m &&& 1 <<< power = 0 := by
        rw [and_one_shiftLeft_eq_zero]
        exact testBit_lt_twoVal m power hlt
      simp only [scanBit]
      rw [if_pos hbit]
      exact ih (power + 1) (by omega) (by omega)

/-- Claim C10: for every value at least 2 the bit scan of `IsPrime` over
`value - 1` terminates (fuel `value` suffices) and returns the index of the
least significant set bit; the scan over 0 (the case `value = 1`) never
finds a set bit for any fuel, and the input 1 does survive the pre-filter,
so the bound `value ≥ 2` is necessary. -/
theorem c10_scan_termination :
    (∀ v : Nat, 2 ≤ v → scanBit (v - 1) v 0 = some (twoVal (v - 1))) ∧
    (∀ fuel power : Nat, scanBit 0 fuel power = none) ∧
    preFilterRejects 1 = false := by
  refine ⟨fun v hv => ?_, scanBit_zero, by decide⟩
  have hne : v - 1 ≠ 0 := by omega
  refine scanBit_finds (v - 1) hne v 0 (by omega) ?_
  have := twoVal_le_self (v - 1)
  omega

/-- Witness for C10 at concrete inputs (`v = 5`, so the scan runs over 4). -/
theorem c10_witness : scanBit 4 5 0 = some 2 ∧ scanBit 0 7 3 = none :=
  ⟨c10_scan_termination.1 5 (by decide), c10_scan_termination.2.1 7 3⟩

theorem GetRandBits_lt : ∀ bits draw, GetRandBits bits draw < 2 ^ bits := by
  intro bits
  induction bits with
  | zero =>
    intro draw
    simp [GetRandBits]
  | succ bits ih =>
    intro draw
    have hstep : (2 : Nat) ^ bits < 2 ^ (bits + 1) := Nat.pow_lt_pow_succ (by omega)
    simp only [GetRandBits]
    by_cases h : draw bits = false
    · rw [if_pos h]
      refine Nat.or_lt_two_pow (by have := ih draw; omega) ?_
      rw [Nat.shiftLeft_eq, one_mul]
      exact hstep
    · rw [if_neg h]
      have := ih draw
      omega

theorem mask_lt (bits : Nat) (h : 2 ≤ bits) : mask bits < 2 ^ bits := by
  have h1 : (1 : Nat) < 2 ^ bits := Nat.one_lt_two_pow_iff.mpr (by omega)
  refine Nat.or_lt_two_pow ?_ (by omega)
  rw [Nat.shiftLeft_eq]
  calc 3 * 2 ^ (bits - 2) < 4 * 2 ^ (bits - 2) := by
        have : 0 < 2 ^ (bits - 2) := by positivity
        omega
    _ = 2 ^ bits := by
        rw [show (4 : Nat) = 2 ^ 2 from rfl, ← pow_add]
        congr 1
        omega

theorem mask_testBit_zero (bits : Nat) : (mask bits).testBit 0 = true := by
  rw [mask, Nat.testBit_or]
  have h1 : Nat.testBit 1 0 = true := by decide
  rw [h1, Bool.or_true]

theorem or_mask_odd (r bits : Nat) : (r ||| mask bits) % 2 = 1 := by
  have h : (r ||| mask bits).testBit 0 = true := by
    rw [Nat.testBit_or, mask_testBit_zero, Bool.or_true]
  simpa [Nat.testBit_zero] using h

theorem mask_testBit_high (bits : Nat) (h : 2 ≤ bits) :
    (mask bits).testBit (bits - 1) = true ∧ (mask bits).testBit (bits - 2) = true := by
  have hsub1 : bits - 1 - (bits - 2) = 1 := by omega
  have hsub2 : bits - 2 - (bits - 2) = 0 := by omega
  have hge1 : bits - 1 ≥ bits - 2 := by omega
  have h1 : (3 <<< (bits - 2)).testBit (bits - 1) = true := by
    rw [Nat.testBit_shiftLeft, hsub1]
    have h31 : Nat.testBit 3 1 = true := by decide
    simp [hge1, h31]
  have h2 : (3 <<< (bits - 2)).testBit (bits - 2) = true := by
    rw [Nat.testBit_shiftLeft, hsub2]
    simp
  constructor
  · rw [mask, Nat.testBit_or, h1, Bool.true_or]
  · rw [mask, Nat.testBit_or, h2, Bool.true_or]

theorem FPrimeAux_sound : ∀ fuel k bits draws v,
    FPrimeAux bits draws fuel k = some v →
    (∃ r, r < 2 ^ bits ∧ v = r ||| mask bits) ∧ v % e0 ≠ 1 ∧ IsPrime v = true := by
  intro fuel
  induction fuel with
  | zero =>
    intro k bits draws v h
    exact absurd h (by simp [FPrimeAux])
  | succ fuel ih =>
    intro k bits draws v h
    simp only [FPrimeAux] at h
    by_cases hc : (GetRandBits bits (draws k) ||| mask bits) % e0 ≠ 1 ∧
        IsPrime (GetRandBits bits (draws k) ||| mask bits) = true
    · rw [if_pos hc] at h
      obtain rfl : GetRandBits bits (draws k) ||| mask bits = v := by
        injection h
      exact ⟨⟨GetRandBits bits (draws k), GetRandBits_lt bits (draws k), rfl⟩,
        hc.1, hc.2⟩
    · rw [if_neg hc] at h
      exact ih (k + 1) bits draws v h

theorem preFilterRejects_false_of_isPrime (v : Nat) (hp : IsPrime v = true) :
    preFilterRejects v = false := by
  by_cases hf : preFilterRejects v = true
  · rw [preFilter_isPrime_false v hf] at hp
    exact absurd hp (by simp)
  · revert hf
    cases preFilterRejects v <;> simp

/-- Claim C6: every value returned by `FPrime` (the spec's `PrimeGenerator`)
is odd, has bits `bits-1` and `bits-2` set, lies in `[2^(bits-1), 2^bits)`
(so it has exactly `bits` significant bits), survives the small-prime
filter, passes the base-2 witness check of `IsPrime`, and is not congruent
to 1 modulo `e0 = 65537`. -/
theorem c6_prime_generator_invariants (bits : Nat) (draws : Nat → Nat → Bool)
    (fuel v : Nat) (hbits : 2 ≤ bits) (h : FPrime bits draws fuel = some v) :
    v % 2 = 1 ∧ v.testBit (bits - 1) = true ∧ v.testBit (bits - 2) = true ∧
    2 ^ (bits - 1) ≤ v ∧ v < 2 ^ bits ∧
    preFilterRejects v = false ∧ IsPrime v = true ∧ v % 65537 ≠ 1 := by
  obtain ⟨⟨r, hr, rfl⟩, he, hp⟩ := FPrimeAux_sound fuel 0 bits draws v h
  have hm := mask_testBit_high bits hbits
  have htb1 : (r ||| mask bits).testBit (bits - 1) = true := by
    rw [Nat.testBit_or, hm.1, Bool.or_true]
  have htb2 : (r ||| mask bits).testBit (bits - 2) = true := by
    rw [Nat.testBit_or, hm.2, Bool.or_true]
  refine ⟨or_mask_odd r bits, htb1, htb2, Nat.testBit_implies_ge htb1,
    Nat.or_lt_two_pow hr (mask_lt bits hbits),
    preFilterRejects_false_of_isPrime _ hp, hp, ?_⟩
  have he0 : e0 = 65537 := by decide
  rw [← he0]
  exact he

/-- Witness for C6: with six bits and draws that set only bit 2, `FPrime`
returns 53 on its first attempt. -/
theorem c6_witness :
    53 % 2 = 1 ∧ Nat.testBit 53 5 = true ∧ Nat.testBit 53 4 = true ∧
    2 ^ 5 ≤ 53 ∧ 53 < 2 ^ 6 ∧ preFilterRejects 53 = false ∧
    IsPrime 53 = true ∧ 53 % 65537 ≠ 1 :=
  c6_prime_generator_invariants 6 (fun _ i => decide (i ≠ 2)) 1 53 (by decide)
    (by decide)

theorem EEAux_fuel_eq : ∀ f g e phi, e < f → e < g →
    EEAux f e phi = EEAux g e phi := by
  intro f
  induction f with
  | zero =>
    intro g e phi hf
    omega
  | succ f ih =>
    intro g e phi hf hg
    obtain ⟨g, rfl⟩ : ∃ k, g = k + 1 := ⟨g - 1, by omega⟩
    by_cases h0 : e = 0
    · simp [EEAux, h0]
    · have hm : phi % e < e := Nat.mod_lt phi (by omega)
      simp only [EEAux, h0, if_false]
      rw [ih g (phi % e) e (by omega) (by omega)]

theorem EE_zero (phi : Nat) : ExtendedEuclidian 0 phi = (0, 1) := rfl

theorem EE_rec (e phi : Nat) (h : e ≠ 0) :
    ExtendedEuclidian e phi =
      ((ExtendedEuclidian (phi % e) e).2 -
         ((phi / e : Nat) : Int) * (ExtendedEuclidian (phi % e) e).1,
       (ExtendedEuclidian (phi % e) e).1) := by
  show EEAux (e + 1) e phi = _
  simp only [EEAux, h, if_false]
  rw [EEAux_fuel_eq e (phi % e + 1) (phi % e) e (Nat.mod_lt phi (by omega))
    (by omega)]
  rfl

theorem cast_div_add_mod (phi e : Nat) :
    (e : Int) * ((phi / e : Nat) : Int) + ((phi % e : Nat) : Int) = (phi : Int) := by
  have h2 : ((e * (phi / e) + phi % e : Nat) : Int) = (phi : Int) := by
    rw [Nat.div_add_mod]
  rw [Nat.cast_add, Nat.cast_mul] at h2
  exact h2

theorem EE_bezout (e phi : Nat) :
    (e : Int) * (ExtendedEuclidian e phi).1 +
      (phi : Int) * (ExtendedEuclidian e phi).2 = Nat.gcd e phi := by
  induction e using Nat.strong_induction_on generalizing phi with
  | _ e ih =>
    by_cases h0 : e = 0
    · subst h0
      rw [EE_zero]
      simp
    · rw [EE_rec e phi h0, Nat.gcd_rec e phi]
      have hb := ih (phi % e) (Nat.mod_lt phi (by omega)) e
      have hmod : ((phi % e : Nat) : Int) =
          (phi : Int) - (e : Int) * ((phi / e : Nat) : Int) := by
        have := cast_div_add_mod phi e
        linarith
      calc (e : Int) * ((ExtendedEuclidian (phi % e) e).2 -
              ((phi / e : Nat) : Int) * (ExtendedEuclidian (phi % e) e).1) +
            (phi : Int) * (ExtendedEuclidian (phi % e) e).1
          = ((phi : Int) - (e : Int) * ((phi / e : Nat) : Int)) *
              (ExtendedEuclidian (phi % e) e).1 +
              (e : Int) * (ExtendedEuclidian (phi % e) e).2 := by ring
        _ = ((phi % e : Nat) : Int) * (ExtendedEuclidian (phi % e) e).1 +
              (e : Int) * (ExtendedEuclidian (phi % e) e).2 := by rw [hmod]
        _ = Nat.gcd (phi % e) e := hb

theorem EE_bounds (e phi : Nat) : 1 ≤ e → e ≤ phi →
    |(ExtendedEuclidian e phi).1| ≤ (phi : Int) ∧
    |(ExtendedEuclidian e phi).2| ≤ (e : Int) := by
  induction e using Nat.strong_induction_on generalizing phi with
  | _ e ih =>
    intro he1 hep
    rw [EE_rec e phi (by omega)]
    by_cases hr : phi % e = 0
    · rw [hr, EE_zero]
      constructor
      · simp only [Prod.fst, Prod.snd, mul_zero, sub_zero, abs_one]
        exact_mod_cast Nat.one_le_iff_ne_zero.mpr (by omega)
      · simp
    · have hmlt : phi % e < e := Nat.mod_lt phi (by omega)
      obtain ⟨hx1, hy1⟩ := ih (phi % e) hmlt e (by omega) (by omega)
      have hK : (0 : Int) ≤ ((phi / e : Nat) : Int) := by positivity
      constructor
      · calc |(ExtendedEuclidian (phi % e) e).2 -
              ((phi / e : Nat) : Int) * (ExtendedEuclidian (phi % e) e).1|
            ≤ |(ExtendedEuclidian (phi % e) e).2| +
              |((phi / e : Nat) : Int) * (ExtendedEuclidian (phi % e) e).1| :=
              abs_sub _ _
          _ = |(ExtendedEuclidian (phi % e) e).2| +
              ((phi / e : Nat) : Int) * |(ExtendedEuclidian (phi % e) e).1| := by
              rw [abs_mul, abs_of_nonneg hK]
          _ ≤ ((phi % e : Nat) : Int) + ((phi / e : Nat) : Int) * (e : Int) := by
              have hmul : ((phi / e : Nat) : Int) * |(ExtendedEuclidian (phi % e) e).1| ≤
                  ((phi / e : Nat) : Int) * (e : Int) :=
                mul_le_mul_of_nonneg_left hx1 hK
              linarith
          _ = (phi : Int) := by
              have := cast_div_add_mod phi e
              linarith
      · simpa using hx1

/-- Claim C7: for all inputs `a`, `b` the pair `(x, y)` returned by
`ExtendedEuclidian a b` satisfies the Bezout identity
`a * x + b * y = gcd a b`; the base case `a = 0` returns `(0, 1)`; and the
computation terminates: its fuel-bounded core is independent of the fuel
once the fuel exceeds `a`, the wrapper's choice. -/
theorem c7_extended_euclid_bezout :
    (∀ a b : Nat, (a : Int) * (ExtendedEuclidian a b).1 +
      (b : Int) * (ExtendedEuclidian a b).2 = Nat.gcd a b) ∧
    (∀ b : Nat, ExtendedEuclidian 0 b = (0, 1)) ∧
    (∀ a b fuel : Nat, a < fuel → EEAux fuel a b = ExtendedEuclidian a b) :=
  ⟨fun a b => EE_bezout a b, fun b => EE_zero b,
   fun a b fuel hf => EEAux_fuel_eq fuel (a + 1) a b hf (by omega)⟩

/-- Witness for C7 at the non-coprime input `(240, 46)` (gcd 2). -/
theorem c7_witness :
    (240 : Int) * (ExtendedEuclidian 240 46).1 +
      (46 : Int) * (ExtendedEuclidian 240 46).2 = Nat.gcd 240 46 ∧
    EEAux 1000 240 46 = ExtendedEuclidian 240 46 :=
  ⟨c7_extended_euclid_bezout.1 240 46,
   c7_extended_euclid_bezout.2.2 240 46 1000 (by decide)⟩

theorem GenerateRSAKeysAux_sound : ∀ outerFuel j p q bits draws innerFuel K,
    GenerateRSAKeysAux p q bits draws innerFuel outerFuel j = some K →
    ∃ e, ((∃ r, r < 2 ^ min bits 32 ∧ e = r ||| mask (min bits 32)) ∧
           e % e0 ≠ 1 ∧ IsPrime e = true) ∧
      0 ≤ (ExtendedEuclidian e ((p - 1) * (q - 1))).1 ∧
      K = TRSAKeys.make e (ExtendedEuclidian e ((p - 1) * (q - 1))).1 (p * q) := by
  intro outerFuel
  induction outerFuel with
  | zero =>
    intro j p q bits draws innerFuel K h
    exact absurd h (by simp [GenerateRSAKeysAux])
  | succ outerFuel ih =>
    intro j p q bits draws innerFuel K h
    simp only [GenerateRSAKeysAux] at h
    cases hFP : GeneratePrime (min bits 32) (draws j) innerFuel with
    | none =>
      simp [hFP] at h
    | some openExp =>
      simp only [hFP] at h
      by_cases hge : 0 ≤ (ExtendedEuclidian openExp ((p - 1) * (q - 1))).1
      · rw [if_pos hge] at h
        have hK : TRSAKeys.make openExp
            (ExtendedEuclidian openExp ((p - 1) * (q - 1))).1 (p * q) = K := by
          injection h
        exact ⟨openExp, FPrimeAux_sound innerFuel 0 (min bits 32) (draws j)
          openExp hFP, hge, hK.symm⟩
      · rw [if_neg hge] at h
        exact ih (j + 1) p q bits draws innerFuel K h

/-- Counterexample to claim C3: with the 12-bit odd primes `p = 2221` and
`q = 2053`, the key generator can terminate having accepted the public
exponent 4033 (a base-2 strong pseudoprime, `4033 = 37 * 109`, accepted by
`IsPrime`); since `37` divides `p - 1 = 2220`, `gcd(e, phi) = 37` and the
returned exponents satisfy `e * d ≡ 37 (mod phi)`, not 1.  The source only
prints a warning in this situation and still returns the pair. -/
theorem c3_counterexample :
    Nat.Prime 2221 ∧ Nat.Prime 2053 ∧ Odd 2221 ∧ Odd 2053 ∧
    2 ^ 11 ≤ 2221 ∧ 2221 < 2 ^ 12 ∧ 2 ^ 11 ≤ 2053 ∧ 2053 < 2 ^ 12 ∧
    GenerateRSAKeys 2221 2053 12 (fun _ _ i => decide (1 ≤ i ∧ i ≤ 5)) 1 1 =
      some (TRSAKeys.make 4033 27109 4559713) ∧
    ((4033 : Int) * 27109) % (((2221 - 1) * (2053 - 1) : Nat) : Int) ≠ 1 :=
  ⟨by norm_num, by norm_num, Nat.odd_iff.mpr rfl, Nat.odd_iff.mpr rfl,
   by decide, by decide, by decide, by decide, by decide, by decide⟩

/-- Claim C3, amended: for odd primes `p`, `q` of the requested bit length,
whenever `GenerateRSAKeys` terminates *and the accepted public exponent is
coprime to `phi = (p-1)(q-1)`* (which the source never checks), the
returned pair satisfies `e * d ≡ 1 (mod phi)` with `e` and `d` both
positive and less than `phi`, and both halves carry the modulus `p * q`.
Without the coprimality assumption the congruence can fail
(`c3_counterexample`). -/
theorem c3_keygen_amended :
    ∀ p q bits innerFuel outerFuel : Nat, ∀ draws : Nat → Nat → Nat → Bool,
    ∀ K : TRSAKeys,
    2 ≤ bits → Nat.Prime p → Nat.Prime q → Odd p → Odd q →
    2 ^ (bits - 1) ≤ p → p < 2 ^ bits → 2 ^ (bits - 1) ≤ q → q < 2 ^ bits →
    GenerateRSAKeys p q bits draws innerFuel outerFuel = some K →
    Nat.gcd K.PublicKey.1 ((p - 1) * (q - 1)) = 1 →
    ((K.PublicKey.1 : Int) * K.PrivateKey.1) %
        (((p - 1) * (q - 1) : Nat) : Int) = 1 ∧
    0 < K.PublicKey.1 ∧
    (K.PublicKey.1 : Int) < (((p - 1) * (q - 1) : Nat) : Int) ∧
    0 < K.PrivateKey.1 ∧
    K.PrivateKey.1 < (((p - 1) * (q - 1) : Nat) : Int) ∧
    K.PublicKey.2 = p * q ∧ K.PrivateKey.2 = p * q := by
  intro p q bits innerFuel outerFuel draws K hbits hp hq hop hoq hpl hpu hql
    hqu hgen hgcd
  obtain ⟨e, ⟨⟨r, hr, rfl⟩, he0ne, hprime⟩, hge, hK⟩ :=
    GenerateRSAKeysAux_sound outerFuel 0 p q bits draws innerFuel K hgen
  subst hK
  simp only [TRSAKeys.make] at hgcd ⊢
  have hmb : 2 ≤ min bits 32 := by omega
  have hodd : (r ||| mask (min bits 32)) % 2 = 1 := or_mask_odd r (min bits 32)
  have helt : r ||| mask (min bits 32) < 2 ^ min bits 32 :=
    Nat.or_lt_two_pow hr (mask_lt _ hmb)
  have hpow2 : (2 : Nat) ≤ 2 ^ (bits - 1) := by
    calc (2 : Nat) = 2 ^ 1 := rfl
      _ ≤ 2 ^ (bits - 1) := Nat.pow_le_pow_right (by omega) (by omega)
  have hp1 : 2 ^ (bits - 1) ≤ p - 1 := by
    have heven : 2 ^ (bits - 1) % 2 = 0 := by
      obtain ⟨k, hk⟩ : ∃ k, bits - 1 = k + 1 := ⟨bits - 2, by omega⟩
      rw [hk, pow_succ]
      omega
    have hpodd : p % 2 = 1 := Nat.odd_iff.mp hop
    omega
  have hq1 : 2 ^ (bits - 1) ≤ q - 1 := by
    have heven : 2 ^ (bits - 1) % 2 = 0 := by
      obtain ⟨k, hk⟩ : ∃ k, bits - 1 = k + 1 := ⟨bits - 2, by omega⟩
      rw [hk, pow_succ]
      omega
    have hqodd : q % 2 = 1 := Nat.odd_iff.mp hoq
    omega
  have hphi_lb : 2 ^ (bits - 1) * 2 ^ (bits - 1) ≤ (p - 1) * (q - 1) :=
    Nat.mul_le_mul hp1 hq1
  have hpow_le : 2 ^ min bits 32 ≤ 2 ^ (bits - 1) * 2 ^ (bits - 1) := by
    rw [← pow_add]
    exact Nat.pow_le_pow_right (by omega) (by omega)
  have hephi : r ||| mask (min bits 32) < (p - 1) * (q - 1) := by omega
  have hphi1 : 1 < (p - 1) * (q - 1) := by
    have h4 : (4 : Nat) ≤ 2 ^ (bits - 1) * 2 ^ (bits - 1) :=
      Nat.mul_le_mul hpow2 hpow2
    omega
  have hbez := EE_bezout (r ||| mask (min bits 32)) ((p - 1) * (q - 1))
  rw [hgcd, Nat.cast_one] at hbez
  have hphiZ : (1 : Int) < (((p - 1) * (q - 1) : Nat) : Int) := by
    exact_mod_cast hphi1
  have hxabs := (EE_bounds (r ||| mask (min bits 32)) ((p - 1) * (q - 1))
    (by omega) (by omega)).1
  have hxne0 : (ExtendedEuclidian (r ||| mask (min bits 32))
      ((p - 1) * (q - 1))).1 ≠ 0 := by
    intro h0
    rw [h0, mul_zero, zero_add] at hbez
    have hdvd : (((p - 1) * (q - 1) : Nat) : Int) ∣ 1 :=
      ⟨(ExtendedEuclidian (r ||| mask (min bits 32)) ((p - 1) * (q - 1))).2,
       hbez.symm⟩
    have := Int.le_of_dvd (by norm_num) hdvd
    omega
  have hxnephi : (ExtendedEuclidian (r ||| mask (min bits 32))
      ((p - 1) * (q - 1))).1 ≠ (((p - 1) * (q - 1) : Nat) : Int) := by
    intro h0
    rw [h0] at hbez
    have hdvd : (((p - 1) * (q - 1) : Nat) : Int) ∣ 1 :=
      ⟨(r ||| mask (min bits 32) : Nat) +
        (ExtendedEuclidian (r ||| mask (min bits 32)) ((p - 1) * (q - 1))).2,
       by linarith [hbez]⟩
    have := Int.le_of_dvd (by norm_num) hdvd
    omega
  refine ⟨?_, by omega, by exact_mod_cast hephi, ?_, ?_, by trivial, by trivial⟩
  · have hex : ((r ||| mask (min bits 32) : Nat) : Int) *
        (ExtendedEuclidian (r ||| mask (min bits 32)) ((p - 1) * (q - 1))).1 =
        1 + (((p - 1) * (q - 1) : Nat) : Int) *
          (-(ExtendedEuclidian (r ||| mask (min bits 32))
              ((p - 1) * (q - 1))).2) := by
      linarith [hbez]
    rw [hex, Int.add_mul_emod_self_left]
    exact Int.emod_eq_of_lt (by norm_num) hphiZ
  · exact lt_of_le_of_ne hge (Ne.symm hxne0)
  · have hle := le_abs_self (ExtendedEuclidian (r ||| mask (min bits 32))
      ((p - 1) * (q - 1))).1
    exact lt_of_le_of_ne (le_trans hle hxabs) hxnephi

/-- Witness for the amended C3: with the 12-bit odd primes `p = 2053` and
`q = 2069` the same draw stream yields `e = 4033`, which is coprime to
`phi = 2052 * 2068`, and the generator returns `d = 1329985` with
`e * d ≡ 1 (mod phi)`. -/
theorem c3_witness :
    ((4033 : Int) * 1329985) % (((2053 - 1) * (2069 - 1) : Nat) : Int) = 1 ∧
    0 < (4033 : Nat) ∧
    ((4033 : Nat) : Int) < (((2053 - 1) * (2069 - 1) : Nat) : Int) ∧
    (0 : Int) < 1329985 ∧
    (1329985 : Int) < (((2053 - 1) * (2069 - 1) : Nat) : Int) ∧
    (4247657 : Nat) = 2053 * 2069 ∧ (4247657 : Nat) = 2053 * 2069 :=
  c3_keygen_amended 2053 2069 12 1 1 (fun _ _ i => decide (1 ≤ i ∧ i ≤ 5))
    (TRSAKeys.make 4033 1329985 4247657) (by decide) (by norm_num)
    (by norm_num) (Nat.odd_iff.mpr rfl) (Nat.odd_iff.mpr rfl) (by decide)
    (by decide) (by decide) (by decide) (by decide) (by decide)

theorem fermat_pow_totient_prime (p m s : Nat) (hp : Nat.Prime p) :
    m ^ ((p - 1) * s + 1) ≡ m [MOD p] := by
  by_cases hdvd : p ∣ m
  · have h0 : m ≡ 0 [MOD p] := (Nat.modEq_zero_iff_dvd).mpr hdvd
    calc m ^ ((p - 1) * s + 1) = m ^ ((p - 1) * s) * m := by rw [pow_succ]
      _ ≡ m ^ ((p - 1) * s) * 0 [MOD p] := Nat.ModEq.mul_left _ h0
      _ = 0 := by rw [mul_zero]
      _ ≡ m [MOD p] := h0.symm
  · have hco : Nat.Coprime m p :=
      Nat.coprime_comm.mp ((Nat.Prime.coprime_iff_not_dvd hp).mpr hdvd)
    have hf : m ^ (p - 1) ≡ 1 [MOD p] := by
      have ht := Nat.ModEq.pow_totient hco
      rwa [Nat.totient_prime hp] at ht
    calc m ^ ((p - 1) * s + 1) = (m ^ (p - 1)) ^ s * m := by
          rw [pow_succ, pow_mul]
      _ ≡ 1 ^ s * m [MOD p] := Nat.ModEq.mul_right m (hf.pow s)
      _ = m := by rw [one_pow, one_mul]

/-- Claim C1: for a valid key pair over distinct odd primes `p`, `q` with
`e * d ≡ 1 (mod (p-1)(q-1))`, decoding an encoded message recovers every
message below the modulus `p * q`. -/
theorem c1_round_trip (p q e d msg : Nat) (hp : Nat.Prime p) (hq : Nat.Prime q)
    (hpq : p ≠ q) (hop : Odd p) (hoq : Odd q)
    (hed : e * d ≡ 1 [MOD (p - 1) * (q - 1)]) (hmsg : msg < p * q) :
    Decode (Encode msg (e, p * q)).1 (d, p * q) = msg := by
  have hp3 : 3 ≤ p := by
    have h1 := hp.two_le
    have h2 := Nat.odd_iff.mp hop
    omega
  have hq3 : 3 ≤ q := by
    have h1 := hq.two_le
    have h2 := Nat.odd_iff.mp hoq
    omega
  have hphi : 2 * 2 ≤ (p - 1) * (q - 1) :=
    Nat.mul_le_mul (show 2 ≤ p - 1 by omega) (show 2 ≤ q - 1 by omega)
  have hn : 1 < p * q := by
    have h9 : 9 ≤ p * q := Nat.mul_le_mul hp3 hq3
    omega
  have hedm : (e * d) % ((p - 1) * (q - 1)) = 1 % ((p - 1) * (q - 1)) := hed
  rw [Nat.mod_eq_of_lt (show (1 : Nat) < (p - 1) * (q - 1) by omega)] at hedm
  obtain ⟨t, hsplit⟩ : ∃ t, e * d = (p - 1) * (q - 1) * t + 1 :=
    ⟨e * d / ((p - 1) * (q - 1)), by
      conv_lhs => rw [← Nat.div_add_mod (e * d) ((p - 1) * (q - 1))]
      rw [hedm]⟩
  have hmodp : msg ^ (e * d) ≡ msg [MOD p] := by
    have h1 : e * d = (p - 1) * ((q - 1) * t) + 1 := by rw [hsplit]; ring
    rw [h1]
    exact fermat_pow_totient_prime p msg ((q - 1) * t) hp
  have hmodq : msg ^ (e * d) ≡ msg [MOD q] := by
    have h1 : e * d = (q - 1) * ((p - 1) * t) + 1 := by rw [hsplit]; ring
    rw [h1]
    exact fermat_pow_totient_prime q msg ((p - 1) * t) hq
  have hco : Nat.Coprime p q := (Nat.coprime_primes hp hq).mpr hpq
  have hmodn : msg ^ (e * d) % (p * q) = msg % (p * q) :=
    (Nat.modEq_and_modEq_iff_modEq_mul hco).mp ⟨hmodp, hmodq⟩
  show BinPower (BinPower msg e (p * q)) d (p * q) = msg
  rw [BinPower_correct _ _ _ hn, BinPower_correct _ _ _ hn, ← Nat.pow_mod,
    ← pow_mul, hmodn, Nat.mod_eq_of_lt hmsg]

/-- Witness for C1 at the classical vector `p = 61`, `q = 53`, `e = 17`,
`d = 2753`, message 65. -/
theorem c1_witness : Decode (Encode 65 (17, 3233)).1 (2753, 3233) = 65 :=
  c1_round_trip 61 53 17 2753 65 (by norm_num) (by norm_num) (by decide)
    (Nat.odd_iff.mpr rfl) (Nat.odd_iff.mpr rfl) (by decide) (by decide)

/-- Claim C8: `Encode` always returns exactly `BinPower msg e n`
(equivalently `msg ^ e % n` for `n > 1`), also when `msg ≥ n`: the
oversize-block condition only contributes a diagnostic message and never
changes the returned value. -/
theorem c8_encode_fail_open :
    ∀ msg e n : Nat, 1 < n →
    (Encode msg (e, n)).1 = BinPower msg e n ∧
    (Encode msg (e, n)).1 = msg ^ e % n ∧
    (Encode msg (e, n)).2 =
      (if n ≤ msg then ["Block is too large.\n"] else []) :=
  fun msg e n hn => ⟨rfl, BinPower_correct msg e n hn, rfl⟩

/-- Witness for C8 at an oversize block (`msg = 5 ≥ n = 3`): the value is
still `5 ^ 2 % 3` and the diagnostic is emitted. -/
theorem c8_witness :
    (Encode 5 (2, 3)).1 = 5 ^ 2 % 3 ∧
    (Encode 5 (2, 3)).2 = ["Block is too large.\n"] :=
  ⟨(c8_encode_fail_open 5 2 3 (by decide)).2.1,
   ((c8_encode_fail_open 5 2 3 (by decide)).2.2).trans (if_pos (by decide))⟩
